import Mathlib

/-!
Verification of the poker repository (pokeher/cards.py, arena/betting.py,
standalone/preflop_hand_wins.py) against its natural-language specification.

Shallow embedding conventions:
* Python floats used by the hand scorer become exact rationals.
* Python ints (pot sizes, bets) become `Int`; list indices become `Nat`/`Int`
  following the source (the betting round keeps an `Int` index initialised to -1).
* Python dicts keyed by player become association lists with first-key lookup,
  in-place update and delete, which agrees with dict semantics for the unique-key
  maps the source builds.
-/

namespace Poker

/-- Suit from cards.py: an index 0..3 into SUITS. -/
structure Suit where
  suit : Nat
deriving DecidableEq

/-- Card from cards.py: a face value (2..14) and a suit. -/
structure Card where
  value : Nat
  suit : Suit
deriving DecidableEq

/-- Card.score_value from cards.py: 0.01 * value below 10, 0.1 * value from 10 up. -/
def Card.score_value (c : Card) : ℚ :=
  if c.value < 10 then (c.value : ℚ) / 100 else (c.value : ℚ) / 10

/-- HandBuilder.NO_SCORE -/
def NO_SCORE : ℚ := -1
/-- HandBuilder.HIGH_CARD -/
def HIGH_CARD : ℚ := 0
/-- HandBuilder.PAIR -/
def PAIR : ℚ := 1
/-- HandBuilder.TWO_PAIR -/
def TWO_PAIR : ℚ := 2
/-- HandBuilder.TRIPS -/
def TRIPS : ℚ := 3
/-- HandBuilder.STRAIGHT -/
def STRAIGHT : ℚ := 4
/-- HandBuilder.FLUSH -/
def FLUSH : ℚ := 5
/-- HandBuilder.FULL_HOUSE -/
def FULL_HOUSE : ℚ := 6
/-- HandBuilder.QUADS -/
def QUADS : ℚ := 7
/-- HandBuilder.STRAIGHT_FLUSH -/
def STRAIGHT_FLUSH : ℚ := 8
/-- HandBuilder.HAND_LENGTH -/
def HAND_LENGTH : Nat := 5

/-- Sort key order used by HandBuilder.__sort_hand: descending by (value, suit index),
stated as the relation that must hold between consecutive cards of the sorted list. -/
def handSortRel (a b : Card) : Prop :=
  b.value < a.value ∨ (b.value = a.value ∧ b.suit.suit ≤ a.suit.suit)

instance : DecidableRel handSortRel := fun a b => by
  unfold handSortRel; infer_instance

/-- HandBuilder.__sort_hand: sort the cards, high values first. -/
def sortHand (cards : List Card) : List Card :=
  List.insertionSort handSortRel cards

/-- Number of cards in the hand holding a given face value (the seen array of
HandBuilder.find_pairs_trips_quads). -/
def countValue (cards : List Card) (v : Nat) : Nat :=
  (cards.filter (fun c => c.value = v)).length

/-- HandBuilder.find_pairs_trips_quads: face values seen exactly 2, 3 and 4 times,
collected in increasing face-value order (the seen array has indices 0..14). -/
def find_pairs_trips_quads (cards : List Card) : List Nat × List Nat × List Nat :=
  ((List.range 15).filter (fun i => countValue cards i = 2),
   (List.range 15).filter (fun i => countValue cards i = 3),
   (List.range 15).filter (fun i => countValue cards i = 4))

/-- HandBuilder.is_straight: every consecutive gap of the (descending) hand is exactly 1. -/
def is_straight : List Card → Bool
  | [] => true
  | [_] => true
  | a :: b :: rest =>
      decide ((a.value : Int) - (b.value : Int) = 1) && is_straight (b :: rest)

/-- Number of cards of a given suit index (the counts dict of select_flush_suit). -/
def countSuit (cards : List Card) (s : Nat) : Nat :=
  (cards.filter (fun c => c.suit.suit = s)).length

/-- HandBuilder.select_flush_suit: the suit index holding at least HAND_LENGTH cards. -/
def select_flush_suit (cards : List Card) : Option Nat :=
  if cards = [] then none
  else (List.range 4).find? (fun s => HAND_LENGTH ≤ countSuit cards s)

/-- HandBuilder.__score_flush: constant zero in the source. -/
def score_flush : ℚ := 0

/-- HandBuilder.__score_high_card: score_value of the first card of the hand. -/
def score_high_card (cards : List Card) : ℚ :=
  match cards with
  | [] => 0
  | c :: _ => c.score_value

/-- HandBuilder.__score_pairs: constant zero in the source. -/
def score_pairs (_pairs : List Nat) : ℚ := 0

/-- HandBuilder.__score_full_house: constant zero in the source. -/
def score_full_house (_trips _pairs : List Nat) : ℚ := 0

/-- HandBuilder.__score_hand: score an (already sorted) 5-card hand. -/
def scoreHandInternal (cards : List Card) : ℚ :=
  let score1 : ℚ :=
    if (select_flush_suit cards).isSome then FLUSH + score_flush else NO_SCORE
  let score2 : ℚ :=
    if is_straight cards then
      (if score1 = FLUSH then STRAIGHT_FLUSH else STRAIGHT) + score_high_card cards
    else score1
  if score2 > NO_SCORE then score2
  else
    let ptq := find_pairs_trips_quads cards
    let pairs := ptq.1
    let trips := ptq.2.1
    let quads := ptq.2.2
    let s0 := HIGH_CARD + score_high_card cards
    let s1 := if pairs ≠ [] then PAIR + score_pairs pairs else s0
    let s2 := if pairs.length > 1 then TWO_PAIR + score_pairs pairs else s1
    let s3 := if trips ≠ [] then TRIPS + score_pairs trips else s2
    let s4 := if trips ≠ [] ∧ pairs ≠ [] then FULL_HOUSE + score_full_house trips pairs else s3
    if quads ≠ [] then QUADS + score_pairs pairs else s4

/-- HandBuilder.score_hand: drop hands that are not exactly 5 cards, else sort and score. -/
def score_hand (cards : List Card) : ℚ :=
  if cards = [] ∨ cards.length ≠ HAND_LENGTH then NO_SCORE
  else scoreHandInternal (sortHand cards)

/-- All k-element combinations of a list in itertools.combinations order. -/
def combinations {α : Type} : Nat → List α → List (List α)
  | 0, _ => [[]]
  | _ + 1, [] => []
  | n + 1, x :: xs => ((combinations n xs).map (fun h => x :: h)) ++ combinations (n + 1) xs

/-- Best-hand tracking loop of HandBuilder.find_hand: keep the first strictly greatest
scoring combination. -/
def bestHandLoop : List (List Card) → ℚ → Option (List Card) → ℚ × Option (List Card)
  | [], bestScore, best => (bestScore, best)
  | h :: rest, bestScore, best =>
      let s := scoreHandInternal h
      if s > bestScore then bestHandLoop rest s (some h)
      else bestHandLoop rest bestScore best

/-- HandBuilder.find_hand: None when fewer than 5 cards, the cards themselves at
exactly 5, otherwise the best 5-card combination of the descending-sorted cards. -/
def find_hand (cards : List Card) : Option (List Card) :=
  if cards = [] ∨ cards.length < HAND_LENGTH then none
  else if cards.length = HAND_LENGTH then some cards
  else (bestHandLoop (combinations HAND_LENGTH (sortHand cards)) NO_SCORE none).2

/-!
Kernel-computable mirror of the scorer. Every score the source produces is an
integer multiple of 1/100, so the scorer has an exact image in `Int` after
scaling by 100. Rational arithmetic does not reduce inside the kernel, so all
concrete evaluations go through this mirror; the theorems `score_value_eq`,
`scoreHandInternal_eq` and `score_hand_eq` prove once and for all that the
mirror is the source scorer up to the fixed scale factor.
-/

/-- Card.score_value scaled by 100. -/
def scoreValue100 (c : Card) : Int :=
  if c.value < 10 then (c.value : Int) else 10 * (c.value : Int)

/-- HandBuilder.__score_high_card scaled by 100. -/
def scoreHighCard100 (cards : List Card) : Int :=
  match cards with
  | [] => 0
  | c :: _ => scoreValue100 c

/-- HandBuilder.__score_hand scaled by 100. -/
def scoreHand100 (cards : List Card) : Int :=
  let score1 : Int := if (select_flush_suit cards).isSome then 500 + 0 else -100
  let score2 : Int :=
    if is_straight cards then
      (if score1 = 500 then 800 else 400) + scoreHighCard100 cards
    else score1
  if score2 > -100 then score2
  else
    let ptq := find_pairs_trips_quads cards
    let pairs := ptq.1
    let trips := ptq.2.1
    let quads := ptq.2.2
    let s0 := 0 + scoreHighCard100 cards
    let s1 := if pairs ≠ [] then 100 + 0 else s0
    let s2 := if pairs.length > 1 then 200 + 0 else s1
    let s3 := if trips ≠ [] then 300 + 0 else s2
    let s4 := if trips ≠ [] ∧ pairs ≠ [] then 600 + 0 else s3
    if quads ≠ [] then 700 + 0 else s4

/-- HandBuilder.score_hand scaled by 100. -/
def score_hand100 (cards : List Card) : Int :=
  if cards = [] ∨ cards.length ≠ HAND_LENGTH then -100
  else scoreHand100 (sortHand cards)

theorem score_value_eq (c : Card) : c.score_value = (scoreValue100 c : ℚ) / 100 := by
  unfold Card.score_value scoreValue100
  by_cases h : c.value < 10 <;> simp only [h, if_true, if_false, if_pos, if_neg] <;> push_cast <;> ring

theorem score_high_card_eq (cards : List Card) :
    score_high_card cards = (scoreHighCard100 cards : ℚ) / 100 := by
  cases cards with
  | nil => simp [score_high_card, scoreHighCard100]
  | cons c rest => simpa [score_high_card, scoreHighCard100] using score_value_eq c

theorem score_high_card100_nonneg (cards : List Card) : 0 ≤ scoreHighCard100 cards := by
  cases cards with
  | nil => simp [scoreHighCard100]
  | cons c rest =>
      simp only [scoreHighCard100, scoreValue100]
      by_cases h : c.value < 10 <;> simp [h]

set_option maxHeartbeats 2000000 in
theorem scoreHandInternal_eq (cards : List Card) :
    scoreHandInternal cards = (scoreHand100 cards : ℚ) / 100 := by
  have hcn := score_high_card100_nonneg cards
  have hcnq : (0 : ℚ) ≤ (scoreHighCard100 cards : ℚ) := by exact_mod_cast hcn
  have hcq0 : (0 : ℚ) ≤ (scoreHighCard100 cards : ℚ) / 100 := by positivity
  unfold scoreHandInternal scoreHand100
  simp only [FLUSH, score_flush, NO_SCORE, STRAIGHT_FLUSH, STRAIGHT, HIGH_CARD, PAIR,
    TWO_PAIR, TRIPS, FULL_HOUSE, QUADS, score_pairs, score_full_house,
    score_high_card_eq cards]
  by_cases hf : (select_flush_suit cards).isSome <;>
    by_cases hs : is_straight cards <;>
      simp only [hf, hs, ite_true, ite_false, Bool.false_eq_true, if_true, if_false]
  all_goals try norm_num
  all_goals try split_ifs
  all_goals try (push_cast; ring1)
  all_goals try (push_cast; linarith)
  all_goals (exfalso; linarith)

theorem score_hand_eq (cards : List Card) :
    score_hand cards = (score_hand100 cards : ℚ) / 100 := by
  unfold score_hand score_hand100
  by_cases h : cards = [] ∨ cards.length ≠ HAND_LENGTH
  · simp only [h, if_true, ite_true, NO_SCORE]
    norm_num
  · simp only [h, if_false, ite_false]
    exact scoreHandInternal_eq (sortHand cards)


/-- Nonnegativity of the high-card tiebreak. -/
theorem score_high_card_nonneg (cards : List Card) : 0 ≤ score_high_card cards := by
  rw [score_high_card_eq]
  have := score_high_card100_nonneg cards
  positivity

/-- Hand category implied by the branch structure of HandBuilder.__score_hand: the
integer band the final score is based on (0 high card, 1 pair, 2 two pair, 3 trips,
4 straight, 5 flush, 6 full house, 7 quads, 8 straight flush). -/
def handCategory (cards : List Card) : Nat :=
  if (select_flush_suit cards).isSome then
    (if is_straight cards then 8 else 5)
  else if is_straight cards then 4
  else
    let ptq := find_pairs_trips_quads cards
    if ptq.2.2 ≠ [] then 7
    else if ptq.2.1 ≠ [] ∧ ptq.1 ≠ [] then 6
    else if ptq.2.1 ≠ [] then 3
    else if ptq.1.length > 1 then 2
    else if ptq.1 ≠ [] then 1
    else 0

set_option maxHeartbeats 2000000 in
/-- The source score of a 5-card hand is its category band plus, exactly for the
high-card, straight and straight-flush bands, the top-card tiebreak; all other
bands (pair, two pair, trips, flush, full house, quads) get a constant zero
tiebreak because __score_pairs, __score_full_house and __score_flush return 0. -/
theorem scoreHandInternal_category (cards : List Card) :
    scoreHandInternal cards =
      (handCategory cards : ℚ) +
        (if handCategory cards = 0 ∨ handCategory cards = 4 ∨ handCategory cards = 8
         then score_high_card cards else 0) := by
  have hc0 := score_high_card_nonneg cards
  unfold scoreHandInternal handCategory
  simp only [FLUSH, score_flush, NO_SCORE, STRAIGHT_FLUSH, STRAIGHT, HIGH_CARD, PAIR,
    TWO_PAIR, TRIPS, FULL_HOUSE, QUADS, score_pairs, score_full_house]
  by_cases hf : (select_flush_suit cards).isSome <;>
    by_cases hs : is_straight cards <;>
      simp only [hf, hs, ite_true, ite_false, Bool.false_eq_true, if_true, if_false]
  all_goals try norm_num
  all_goals try split_ifs
  all_goals try norm_num
  all_goals try (push_cast; ring1)
  all_goals try (push_cast; linarith)
  all_goals try (exfalso; linarith)
  all_goals try (intro h; exfalso; linarith)
  all_goals try (exfalso; linarith)
  all_goals simp_all



/-- Flush, two to seven of clubs (no straight): scores FLUSH + 0 = 5. -/
def c1Flush : List Card := [⟨2,⟨0⟩⟩, ⟨3,⟨0⟩⟩, ⟨4,⟨0⟩⟩, ⟨5,⟨0⟩⟩, ⟨7,⟨0⟩⟩]
/-- Straight, seven to jack in mixed suits: scores STRAIGHT + 1.1 = 5.1. -/
def c1Straight : List Card := [⟨7,⟨3⟩⟩, ⟨8,⟨1⟩⟩, ⟨9,⟨2⟩⟩, ⟨10,⟨3⟩⟩, ⟨11,⟨0⟩⟩]
/-- Ace-high unpaired hand: scores HIGH_CARD + 1.4 = 1.4. -/
def c1HighAce : List Card := [⟨14,⟨3⟩⟩, ⟨9,⟨2⟩⟩, ⟨7,⟨1⟩⟩, ⟨5,⟨0⟩⟩, ⟨3,⟨1⟩⟩]
/-- Pair of queens: scores PAIR + 0 = 1. -/
def c1PairQ : List Card := [⟨12,⟨3⟩⟩, ⟨12,⟨2⟩⟩, ⟨8,⟨1⟩⟩, ⟨5,⟨0⟩⟩, ⟨2,⟨1⟩⟩]

/-- C1: the claim that category bands never overlap is false on the code. The
straight tiebreak adds score_value of the top card, which reaches 1.1..1.4 for
face-high straights, while a flush scores exactly FLUSH = 5: the jack-high
straight scores 5.1 and beats every flush. Likewise an ace-high no-pair hand
scores 1.4 while every pair hand scores exactly PAIR = 1, so a high-card hand
outscores a pair hand. This theorem evaluates the source scorer at those hands. -/
theorem c1_category_bands_overlap :
    score_hand c1Straight = 51/10 ∧ score_hand c1Flush = 5 ∧
      score_hand c1Flush < score_hand c1Straight ∧
    score_hand c1HighAce = 7/5 ∧ score_hand c1PairQ = 1 ∧
      score_hand c1PairQ < score_hand c1HighAce := by
  have h1 : score_hand100 c1Straight = 510 := by decide
  have h2 : score_hand100 c1Flush = 500 := by decide
  have h3 : score_hand100 c1HighAce = 140 := by decide
  have h4 : score_hand100 c1PairQ = 100 := by decide
  simp only [score_hand_eq, h1, h2, h3, h4]
  norm_num

/-- Pair of kings with 9, 5, 2 kickers. -/
def c3Kings : List Card := [⟨13,⟨3⟩⟩, ⟨13,⟨2⟩⟩, ⟨9,⟨1⟩⟩, ⟨5,⟨0⟩⟩, ⟨2,⟨1⟩⟩]
/-- Pair of twos with ace, 9, 5 kickers. -/
def c3Twos : List Card := [⟨14,⟨3⟩⟩, ⟨9,⟨2⟩⟩, ⟨5,⟨1⟩⟩, ⟨2,⟨0⟩⟩, ⟨2,⟨1⟩⟩]

/-- C3 counterexample: a pair of kings and a pair of twos both score exactly
PAIR = 1, so within the pair category the score is not strictly monotone in the
deciding rank and equal scores do not imply equal deciding ranks. -/
theorem c3_counterexample :
    score_hand c3Kings = 1 ∧ score_hand c3Twos = 1 ∧
      ¬ score_hand c3Twos < score_hand c3Kings := by
  have h1 : score_hand100 c3Kings = 100 := by decide
  have h2 : score_hand100 c3Twos = 100 := by decide
  simp only [score_hand_eq, h1, h2]
  norm_num

/-- C3 (amended): within a category the scorer behaves as follows. For the pair,
two-pair, trips, flush, full-house and quads categories the tiebreak contribution
is constant zero, so any two hands of the same such category score equally,
whatever their deciding ranks. For the high-card, straight and straight-flush
categories the score is the band plus the top card of the hand as scored by
score_value, and score_value is strictly monotone in the face value, so those
categories are ordered by their leading card. -/
theorem c3_within_category_scoring :
    (∀ cs1 cs2 : List Card,
        handCategory cs1 = handCategory cs2 →
        (handCategory cs1 = 1 ∨ handCategory cs1 = 2 ∨ handCategory cs1 = 3 ∨
          handCategory cs1 = 5 ∨ handCategory cs1 = 6 ∨ handCategory cs1 = 7) →
        scoreHandInternal cs1 = scoreHandInternal cs2)
    ∧ (∀ cs1 cs2 : List Card,
        handCategory cs1 = handCategory cs2 →
        (handCategory cs1 = 0 ∨ handCategory cs1 = 4 ∨ handCategory cs1 = 8) →
        (scoreHandInternal cs1 < scoreHandInternal cs2 ↔
          score_high_card cs1 < score_high_card cs2))
    ∧ (∀ c d : Card, c.value < d.value → c.score_value < d.score_value) := by
  refine ⟨?_, ?_, ?_⟩
  · intro cs1 cs2 hcat hk
    rw [scoreHandInternal_category, scoreHandInternal_category, ← hcat,
      if_neg (by rcases hk with h | h | h | h | h | h <;> omega),
      if_neg (by rcases hk with h | h | h | h | h | h <;> omega)]
  · intro cs1 cs2 hcat hk
    rw [scoreHandInternal_category, scoreHandInternal_category, ← hcat,
      if_pos hk, if_pos hk, hcat, add_lt_add_iff_left]
  · intro c d h
    unfold Card.score_value
    have hq : (c.value : ℚ) < (d.value : ℚ) := by exact_mod_cast h
    by_cases h1 : c.value < 10 <;> by_cases h2 : d.value < 10 <;>
      simp only [h1, h2, ite_true, ite_false, if_true, if_false]
    · rw [div_lt_div_iff (by norm_num) (by norm_num)]
      nlinarith
    · have hc9 : (c.value : ℚ) ≤ 9 := by exact_mod_cast Nat.lt_succ_iff.mp h1
      have hd10 : (10 : ℚ) ≤ (d.value : ℚ) := by exact_mod_cast Nat.le_of_not_lt h2
      rw [div_lt_div_iff (by norm_num) (by norm_num)]
      nlinarith
    · exact absurd h (by omega)
    · rw [div_lt_div_iff (by norm_num) (by norm_num)]
      nlinarith

/-- Witness for C3 amended: the pair of kings and the pair of twos are both in
category 1 and therefore receive equal scores. -/
theorem c3_within_category_scoring_witness :
    scoreHandInternal c3Kings = scoreHandInternal c3Twos :=
  c3_within_category_scoring.1 c3Kings c3Twos (by decide) (by decide)

/-- C7: the evaluator rejects invalid input rather than crashing: find_hand of
fewer than 5 cards is None, and score_hand of a set whose size is not exactly 5
is the NO_SCORE sentinel. -/
theorem c7_invalid_input :
    (∀ cards : List Card, cards.length < HAND_LENGTH → find_hand cards = none)
    ∧ (∀ cards : List Card, cards.length ≠ HAND_LENGTH → score_hand cards = NO_SCORE) := by
  constructor
  · intro cards h
    unfold find_hand
    rw [if_pos (Or.inr h)]
  · intro cards h
    unfold score_hand
    rw [if_pos (Or.inr h)]

/-- Witness for C7 at one and six concrete cards. -/
theorem c7_invalid_input_witness :
    find_hand [⟨14,⟨0⟩⟩] = none ∧
      score_hand [⟨2,⟨0⟩⟩, ⟨3,⟨0⟩⟩, ⟨4,⟨0⟩⟩, ⟨5,⟨0⟩⟩, ⟨7,⟨0⟩⟩, ⟨8,⟨0⟩⟩] = NO_SCORE :=
  ⟨c7_invalid_input.1 [⟨14,⟨0⟩⟩] (by decide),
   c7_invalid_input.2 [⟨2,⟨0⟩⟩, ⟨3,⟨0⟩⟩, ⟨4,⟨0⟩⟩, ⟨5,⟨0⟩⟩, ⟨7,⟨0⟩⟩, ⟨8,⟨0⟩⟩] (by decide)⟩

/-- Hand from cards.py: the two hole cards ordered high/low by value, plus the
memoised score slot _score, initially the NO_SCORE sentinel. -/
structure Hand where
  high : Card
  low : Card
  scoreVal : ℚ
deriving DecidableEq

/-- Hand.__init__: order the two cards by value; the score starts at NO_SCORE. -/
def mkHand (card1 card2 : Card) : Hand :=
  if card1.value > card2.value then ⟨card1, card2, NO_SCORE⟩
  else ⟨card2, card1, NO_SCORE⟩

/-- Hand.score: None while the sentinel is stored, else the stored score. -/
def Hand.score (h : Hand) : Option ℚ :=
  if h.scoreVal = NO_SCORE then none else some h.scoreVal

/-- Hand.set_score: stores the value when it is truthy (nonzero) and greater than
NO_SCORE, else leaves the slot unchanged. -/
def Hand.set_score (h : Hand) (s : ℚ) : Hand :=
  if s ≠ 0 ∧ s > NO_SCORE then { h with scoreVal := s } else h

/-- C8 counterexample: set_score is not write-once and a non-positive set is not
always a no-op. Setting 5 and then 7 leaves 7 stored (the claim says the later
set must not change the memoised score), and setting -1/2 on a fresh hand stores
-1/2 even though -1/2 is non-positive (the guard only rejects zero and values
not above NO_SCORE = -1). -/
theorem c8_counterexample :
    (((mkHand ⟨14,⟨3⟩⟩ ⟨2,⟨0⟩⟩).set_score 5).set_score 7).score = some 7 ∧
      ((mkHand ⟨14,⟨3⟩⟩ ⟨2,⟨0⟩⟩).set_score (-(1/2))).score = some (-(1/2)) := by
  norm_num [mkHand, Hand.set_score, Hand.score, NO_SCORE]

/-- C8 (amended): the memoised score starts unset; a set_score call with value 0
or with a value at most NO_SCORE = -1 is a no-op; but a set_score call with any
nonzero value strictly greater than -1 stores that value unconditionally, even
when a score was already stored and even when the value is negative (e.g. -1/2). -/
theorem c8_score_memoisation :
    (∀ c1 c2 : Card, (mkHand c1 c2).score = none)
    ∧ (∀ (h : Hand) (s : ℚ), s = 0 ∨ s ≤ NO_SCORE → h.set_score s = h)
    ∧ (∀ (h : Hand) (s : ℚ), s ≠ 0 → s > NO_SCORE → (h.set_score s).scoreVal = s) := by
  refine ⟨?_, ?_, ?_⟩
  · intro c1 c2
    unfold mkHand Hand.score
    by_cases h : c1.value > c2.value <;> simp [h]
  · intro h s hs
    unfold Hand.set_score
    rw [if_neg]
    rintro ⟨hne, hgt⟩
    rcases hs with h0 | hle
    · exact hne h0
    · exact absurd hgt (not_lt.mpr hle)
  · intro h s h0 hgt
    unfold Hand.set_score
    rw [if_pos ⟨h0, hgt⟩]

/-- Witness for C8 amended at a concrete hand and concrete score values. -/
theorem c8_score_memoisation_witness :
    (mkHand ⟨14,⟨3⟩⟩ ⟨2,⟨0⟩⟩).score = none ∧
      Hand.set_score ⟨⟨14,⟨3⟩⟩, ⟨2,⟨0⟩⟩, (5:ℚ)⟩ 0 = ⟨⟨14,⟨3⟩⟩, ⟨2,⟨0⟩⟩, (5:ℚ)⟩ ∧
      (Hand.set_score ⟨⟨14,⟨3⟩⟩, ⟨2,⟨0⟩⟩, (5:ℚ)⟩ 7).scoreVal = 7 :=
  ⟨c8_score_memoisation.1 _ _, c8_score_memoisation.2.1 _ 0 (Or.inl rfl),
   c8_score_memoisation.2.2 _ 7 (by norm_num) (by rw [NO_SCORE]; norm_num)⟩

/-!
Betting round from arena/betting.py. Player identifiers are an arbitrary type
with decidable equality (the arena uses bot names). The bets dict is an
association list with first-key lookup, in-place update and single-key delete,
matching Python dict semantics on the unique-key dicts the source builds.
-/

/-- Dict lookup: value stored under the first matching key. -/
def betsLookup {α : Type} [DecidableEq α] : List (α × Int) → α → Option Int
  | [], _ => none
  | (k, v) :: rest, p => if k = p then some v else betsLookup rest p

/-- Dict store: update the first matching key in place, else append. -/
def betsInsert {α : Type} [DecidableEq α] : List (α × Int) → α → Int → List (α × Int)
  | [], p, v => [(p, v)]
  | (k, w) :: rest, p, v =>
      if k = p then (k, v) :: rest else (k, w) :: betsInsert rest p v

/-- Dict delete: remove every entry stored under the key. -/
def betsErase {α : Type} [DecidableEq α] : List (α × Int) → α → List (α × Int)
  | [], _ => []
  | (k, w) :: rest, p =>
      if k = p then betsErase rest p else (k, w) :: betsErase rest p

theorem betsLookup_insert {α : Type} [DecidableEq α] (m : List (α × Int)) (p q : α) (v : Int) :
    betsLookup (betsInsert m p v) q = if q = p then some v else betsLookup m q := by
  induction m with
  | nil =>
      by_cases h : q = p
      · simp [betsInsert, betsLookup, h]
      · simp [betsInsert, betsLookup, h, show ¬ p = q from fun h1 => h h1.symm]
  | cons kw rest ih =>
      obtain ⟨k, w⟩ := kw
      by_cases hk : k = p
      · subst hk
        by_cases hq : q = k
        · simp [betsInsert, betsLookup, hq]
        · simp [betsInsert, betsLookup, hq, show ¬ k = q from fun h1 => hq h1.symm]
      · by_cases hkq : k = q
        · subst hkq
          simp [betsInsert, betsLookup, hk]
        · simp [betsInsert, betsLookup, hk, hkq, ih]

theorem betsLookup_erase {α : Type} [DecidableEq α] (m : List (α × Int)) (p q : α) :
    betsLookup (betsErase m p) q = if q = p then none else betsLookup m q := by
  induction m with
  | nil => simp [betsErase, betsLookup]
  | cons kw rest ih =>
      obtain ⟨k, w⟩ := kw
      by_cases hk : k = p
      · subst hk
        by_cases hq : q = k
        · subst hq
          simp [betsErase, betsLookup, ih]
        · simp [betsErase, betsLookup, hq, ih, show ¬ k = q from fun h1 => hq h1.symm]
      · by_cases hkq : k = q
        · subst hkq
          simp [betsErase, betsLookup, hk, ih, show ¬ k = p from hk]
        · simp [betsErase, betsLookup, hk, hkq, ih]

/-- BettingRound state from arena/betting.py. -/
structure BettingRound (α : Type) where
  pot : Int
  sidepot : Int
  bots : List α
  bets : List (α × Int)
  high_better : Option α
  next_better_index : Int

/-- BettingRound.__process_bet: raise the sidepot to the bet when it exceeds it,
record the bettor as high better only for voluntary (non-blind) bets, and store
the bet under the player. -/
def processBet {α : Type} [DecidableEq α] (r : BettingRound α) (bet : Int) (player : α)
    (is_blind : Bool) : BettingRound α :=
  if bet > r.sidepot then
    { r with sidepot := bet,
             high_better := if is_blind then r.high_better else some player,
             bets := betsInsert r.bets player bet }
  else
    { r with bets := betsInsert r.bets player bet }

/-- BettingRound.__set_better_index: only the first call (index still -1) stores. -/
def setBetterIndex {α : Type} (r : BettingRound α) (index : Int) : BettingRound α :=
  if r.next_better_index = -1 then { r with next_better_index := index } else r

/-- Constructor loop of BettingRound.__init__ over enumerate(bots): a bot with a
posted (forced) bet has it added to the pot and processed as a blind; a bot with
no bet gets bets[bot] = 0 and, if the index is still unset, becomes first to act. -/
def initLoop {α : Type} [DecidableEq α] : List α → Nat → BettingRound α → BettingRound α
  | [], _, r => r
  | bot :: rest, i, r =>
      let r1 :=
        match betsLookup r.bets bot with
        | some bet => processBet { r with pot := r.pot + bet } bet bot true
        | none => setBetterIndex { r with bets := betsInsert r.bets bot 0 } (i : Int)
      initLoop rest (i + 1) r1

/-- BettingRound.__init__ given the bot order, the forced-bet dict and the pot. -/
def mkBettingRound {α : Type} [DecidableEq α] (bots : List α) (bets : List (α × Int))
    (pot : Int) : BettingRound α :=
  setBetterIndex
    (initLoop bots 0
      { pot := pot, sidepot := 0, bots := bots, bets := bets,
        high_better := none, next_better_index := -1 })
    0

/-- BettingRound.is_staked: the player still has an entry in the bets dict. -/
def is_staked {α : Type} [DecidableEq α] (r : BettingRound α) (player : α) : Bool :=
  (betsLookup r.bets player).isSome

/-- BettingRound.can_bet: staked and not the current high better. -/
def canBet {α : Type} [DecidableEq α] (r : BettingRound α) (player : α) : Bool :=
  is_staked r player && decide (r.high_better ≠ some player)

/-- BettingRound.next_better: the bot at the action index when it can bet, else None. -/
def nextBetter {α : Type} [DecidableEq α] (r : BettingRound α) : Option α :=
  match r.bots.get? r.next_better_index.toNat with
  | some nb => if canBet r nb then some nb else none
  | none => none

/-- BettingRound.post_bet: advance the action index modulo the bot count, then
either commit the bet (new street total meets the sidepot) or delete the player
from the bets dict and report a fold. Matches the source, which asserts that
the poster equals next_better() before doing this. -/
def post_bet {α : Type} [DecidableEq α] (r : BettingRound α) (player : α) (bet : Int) :
    BettingRound α × Bool :=
  let r1 := { r with next_better_index := (r.next_better_index + 1) % (r.bots.length : Int) }
  let current_bet := (betsLookup r1.bets player).getD 0 + bet
  if current_bet ≥ r1.sidepot then
    (processBet { r1 with pot := r1.pot + bet } current_bet player false, true)
  else
    ({ r1 with bets := betsErase r1.bets player }, false)

/-- NoBetLimit.check_bet: any strictly positive bet is legal. -/
def check_bet (_pot bet : Int) : Bool :=
  bet > 0

/-- C5: an under-call folds the poster. When the next-to-act player posts an
amount whose street total stays strictly below the sidepot threshold, post_bet
returns the rejected outcome, deletes the player from the bets dict, leaves
every other player's entry alone, and leaves pot, sidepot and high better
unchanged: the pot gains nothing from the rejected increment. -/
theorem c5_undercall_folds {α : Type} [DecidableEq α] (r : BettingRound α) (player : α)
    (bet b : Int) (hnext : nextBetter r = some player)
    (hb : betsLookup r.bets player = some b) (hlt : b + bet < r.sidepot) :
    (post_bet r player bet).2 = false
    ∧ (post_bet r player bet).1.pot = r.pot
    ∧ (post_bet r player bet).1.sidepot = r.sidepot
    ∧ (post_bet r player bet).1.high_better = r.high_better
    ∧ betsLookup (post_bet r player bet).1.bets player = none
    ∧ ∀ q, q ≠ player → betsLookup (post_bet r player bet).1.bets q = betsLookup r.bets q := by
  have hge : ¬ ((betsLookup r.bets player).getD 0 + bet ≥ r.sidepot) := by
    rw [hb]
    simpa using not_le.mpr hlt
  refine ⟨?_, ?_, ?_, ?_, ?_, ?_⟩
  · simp [post_bet, hge]
  · simp [post_bet, hge]
  · simp [post_bet, hge]
  · simp [post_bet, hge]
  · simp [post_bet, hge, betsLookup_erase]
  · intro q hq
    simp [post_bet, hge, betsLookup_erase, hq]

/-- Round state of the spec's under-call test: threshold 40, player A has 10 in. -/
def c5R : BettingRound String :=
  { pot := 50, sidepot := 40, bots := ["A", "B"], bets := [("A", 10), ("B", 40)],
    high_better := some "B", next_better_index := 0 }

/-- Witness for C5: A, facing threshold 40 with 10 already in, posts 10 (total 20)
and is folded; the pot keeps only the previously committed chips. -/
theorem c5_undercall_folds_witness :
    (post_bet c5R "A" 10).2 = false
    ∧ (post_bet c5R "A" 10).1.pot = c5R.pot
    ∧ (post_bet c5R "A" 10).1.sidepot = c5R.sidepot
    ∧ (post_bet c5R "A" 10).1.high_better = c5R.high_better
    ∧ betsLookup (post_bet c5R "A" 10).1.bets "A" = none := by
  have h := c5_undercall_folds c5R "A" 10 10 (by decide) (by decide) (by decide)
  exact ⟨h.1, h.2.1, h.2.2.1, h.2.2.2.1, h.2.2.2.2.1⟩

/-- C10: post_bet validates nothing about the amount itself and never consults the
betting-limit policy. Any amount, zero or negative included, is accepted as soon
as the player's previous street bet plus the amount reaches the sidepot
threshold, and the pot moves by exactly that amount. -/
theorem c10_post_no_validation {α : Type} [DecidableEq α] (r : BettingRound α) (player : α)
    (bet b : Int) (hnext : nextBetter r = some player)
    (hb : betsLookup r.bets player = some b) (hge : b + bet ≥ r.sidepot) :
    (post_bet r player bet).2 = true ∧ (post_bet r player bet).1.pot = r.pot + bet := by
  have hge1 : ((betsLookup r.bets player).getD 0 + bet ≥ r.sidepot) := by
    rw [hb]
    simpa using hge
  constructor
  · simp [post_bet, hge1]
  · simp only [post_bet, hge1, ge_iff_le, if_true, ite_true, processBet]
    split_ifs <;> rfl

/-- Round state for the C10 witness: everyone already even at threshold 20. -/
def c10R : BettingRound String :=
  { pot := 80, sidepot := 20, bots := ["A", "B", "C", "D"],
    bets := [("A", 20), ("B", 20), ("C", 20), ("D", 20)],
    high_better := none, next_better_index := 1 }

/-- Witness for C10: B, already at the threshold, posts 0 (a check, which the
NoBetLimit policy would reject as not strictly positive) and is accepted with
the pot unchanged. -/
theorem c10_post_no_validation_witness :
    ((post_bet c10R "B" 0).2 = true ∧ (post_bet c10R "B" 0).1.pot = c10R.pot + 0)
    ∧ check_bet c10R.pot 0 = false :=
  ⟨c10_post_no_validation c10R "B" 0 20 (by decide) (by decide) (by decide), by decide⟩

/-- The C2 scenario round: A, B, C, D with blinds A 10, B 20 and an empty pot. -/
def c2r0 : BettingRound String := mkBettingRound ["A", "B", "C", "D"] [("A", 10), ("B", 20)] 0
/-- State after C calls 20. -/
def c2r1 : BettingRound String := (post_bet c2r0 "C" 20).1
/-- State after D calls 20. -/
def c2r2 : BettingRound String := (post_bet c2r1 "D" 20).1
/-- State after A completes with 10. -/
def c2r3 : BettingRound String := (post_bet c2r2 "A" 10).1
/-- State after B checks with 0. -/
def c2r4 : BettingRound String := (post_bet c2r3 "B" 0).1

/-- C2: the posting sequence behaves as claimed (C, D, A and B act in that order,
every post is accepted, and the pot reaches 80) except for the closing condition:
after B's check no player ever raised above the blind, so the high better is
still unset, every staked player can still bet, and next_better returns C again
instead of None - the round never reports itself closed. -/
theorem c2_scenario_trace :
    nextBetter c2r0 = some "C" ∧ (post_bet c2r0 "C" 20).2 = true
    ∧ nextBetter c2r1 = some "D" ∧ (post_bet c2r1 "D" 20).2 = true
    ∧ nextBetter c2r2 = some "A" ∧ (post_bet c2r2 "A" 10).2 = true
    ∧ nextBetter c2r3 = some "B" ∧ (post_bet c2r3 "B" 0).2 = true
    ∧ c2r4.pot = 80 ∧ c2r4.high_better = none ∧ nextBetter c2r4 = some "C" := by
  decide

/-- BlindManager state from arena/betting.py; the two blind amounts come from the
Blinds(10, 20) created in __init__ (big blind strictly above small blind). -/
structure BlindManager where
  hands_per_level : Nat
  hands_this_level : Nat
  bots : List String
  small_blinds_played : List Nat
  sb_index : Nat
  small_blind : Int
  big_blind : Int
deriving DecidableEq

/-- BlindManager.__init__. -/
def mkBlindManager (hands_per_level : Nat) (bots : List String) : BlindManager :=
  { hands_per_level := hands_per_level, hands_this_level := 0, bots := bots,
    small_blinds_played := List.replicate bots.length 0, sb_index := 0,
    small_blind := 10, big_blind := 20 }

/-- BlindManager.next_sb: the amount and the bot at the rotation pointer; None
models the IndexError the source raises when the pointer is out of range. -/
def next_sb (m : BlindManager) : Option (Int × String) :=
  (m.bots.get? m.sb_index).map (fun b => (m.small_blind, b))

/-- BlindManager.finish_hand: advance the pointer (wrapped) and count the hand;
raising the blind level is a TODO in the source, only the counter reset exists. -/
def finish_hand (m : BlindManager) : BlindManager :=
  let m1 := { m with sb_index := (m.sb_index + 1) % m.bots.length,
                     hands_this_level := m.hands_this_level + 1 }
  if m1.hands_this_level ≥ m1.hands_per_level then { m1 with hands_this_level := 0 } else m1

/-- BlindManager.eliminate_player: blank every seat holding the name, pulling the
pointer back by one (wrapped over the pre-removal length) whenever the pointer
was strictly after a removed seat, then drop the blanked seats. -/
def eliminate_player (m : BlindManager) (name : String) : BlindManager :=
  let n := m.bots.length
  let sb1 := m.bots.enum.foldl
    (fun sb p => if p.2 = name ∧ sb > p.1 then (sb - 1) % n else sb) m.sb_index
  { m with bots := m.bots.filter (fun b => b ≠ name), sb_index := sb1 }

/-- Two-player table after one finished hand: the small-blind pointer is on B. -/
def c6m1 : BlindManager := finish_hand (mkBlindManager 10 ["A", "B"])

/-- C6: eliminating the player the pointer rests on, when that seat is the last
one, leaves the pointer out of range. With bots [A, B] and the pointer on B
(index 1), eliminate(B) keeps sb_index = 1 while only [A] remains, so next_sb
finds no player (the source raises IndexError). The spec's own positive case
passes and is evaluated too: eliminating A, a seat before the pointer, pulls the
pointer back to 0 and next_sb still returns B. -/
theorem c6_pointer_out_of_range :
    c6m1.sb_index = 1
    ∧ (eliminate_player c6m1 "B").bots = ["A"]
    ∧ (eliminate_player c6m1 "B").sb_index = 1
    ∧ next_sb (eliminate_player c6m1 "B") = none
    ∧ (eliminate_player c6m1 "A").sb_index = 0
    ∧ next_sb (eliminate_player c6m1 "A") = some (10, "B") := by
  decide

/-- Projections of __process_bet: pot, bots and the action index are untouched,
the bets dict gains the player's bet, and the sidepot becomes the max. -/
theorem processBet_proj {α : Type} [DecidableEq α] (r : BettingRound α) (bet : Int) (p : α)
    (ib : Bool) :
    (processBet r bet p ib).pot = r.pot
    ∧ (processBet r bet p ib).bots = r.bots
    ∧ (processBet r bet p ib).next_better_index = r.next_better_index
    ∧ (processBet r bet p ib).bets = betsInsert r.bets p bet
    ∧ (processBet r bet p ib).sidepot = max r.sidepot bet := by
  unfold processBet
  split_ifs with h <;> refine ⟨rfl, rfl, rfl, rfl, ?_⟩ <;> dsimp only <;> omega

/-- A blind post never sets the high better. -/
theorem processBet_blind_high {α : Type} [DecidableEq α] (r : BettingRound α) (bet : Int)
    (p : α) : (processBet r bet p true).high_better = r.high_better := by
  unfold processBet
  split_ifs <;> simp_all

/-- Projections of __set_better_index: everything except the index is untouched. -/
theorem setBetterIndex_proj {α : Type} (r : BettingRound α) (idx : Int) :
    (setBetterIndex r idx).pot = r.pot
    ∧ (setBetterIndex r idx).bots = r.bots
    ∧ (setBetterIndex r idx).bets = r.bets
    ∧ (setBetterIndex r idx).sidepot = r.sidepot
    ∧ (setBetterIndex r idx).high_better = r.high_better := by
  unfold setBetterIndex
  split_ifs <;> exact ⟨rfl, rfl, rfl, rfl, rfl⟩

theorem setBetterIndex_index_of_set {α : Type} (r : BettingRound α) (idx : Int)
    (h : r.next_better_index ≠ -1) :
    (setBetterIndex r idx).next_better_index = r.next_better_index := by
  unfold setBetterIndex
  rw [if_neg h]

theorem setBetterIndex_index_of_unset {α : Type} (r : BettingRound α) (idx : Int)
    (h : r.next_better_index = -1) :
    (setBetterIndex r idx).next_better_index = idx := by
  unfold setBetterIndex
  rw [if_pos h]

/-- The constructor loop never touches the high better: every forced bet is
processed with is_blind = true. -/
theorem initLoop_high_better {α : Type} [DecidableEq α] :
    ∀ (l : List α) (i : Nat) (r : BettingRound α),
      (initLoop l i r).high_better = r.high_better := by
  intro l
  induction l with
  | nil => intro i r; rfl
  | cons bot rest ih =>
      intro i r
      unfold initLoop
      cases hl : betsLookup r.bets bot with
      | some bet => rw [ih, processBet_blind_high]
      | none => rw [ih, (setBetterIndex_proj _ _).2.2.2.2]

/-- The constructor loop never changes the bot list. -/
theorem initLoop_bots {α : Type} [DecidableEq α] :
    ∀ (l : List α) (i : Nat) (r : BettingRound α), (initLoop l i r).bots = r.bots := by
  intro l
  induction l with
  | nil => intro i r; rfl
  | cons bot rest ih =>
      intro i r
      unfold initLoop
      cases hl : betsLookup r.bets bot with
      | some bet => rw [ih, (processBet_proj _ _ _ _).2.1]
      | none => rw [ih, (setBetterIndex_proj _ _).2.1]

/-- After the constructor loop every processed bot is staked, and staked bots
stay staked (the loop only inserts into the bets dict). -/
theorem initLoop_staked {α : Type} [DecidableEq α] :
    ∀ (l : List α) (i : Nat) (r : BettingRound α) (b : α),
      (b ∈ l ∨ (betsLookup r.bets b).isSome) →
      (betsLookup (initLoop l i r).bets b).isSome := by
  intro l
  induction l with
  | nil =>
      intro i r b hb
      rcases hb with h | h
      · exact absurd h (List.not_mem_nil b)
      · exact h
  | cons bot rest ih =>
      intro i r b hb
      unfold initLoop
      cases hl : betsLookup r.bets bot with
      | some bet =>
          apply ih
          by_cases hbot : b = bot
          · subst hbot
            right
            rw [(processBet_proj _ _ _ _).2.2.2.1, betsLookup_insert, if_pos rfl]
            rfl
          · rcases hb with h | h
            · rcases List.mem_cons.mp h with h1 | h1
              · exact absurd h1 hbot
              · exact Or.inl h1
            · right
              rw [(processBet_proj _ _ _ _).2.2.2.1, betsLookup_insert, if_neg hbot]
              exact h
      | none =>
          apply ih
          by_cases hbot : b = bot
          · subst hbot
            right
            rw [(setBetterIndex_proj _ _).2.2.1, betsLookup_insert, if_pos rfl]
            rfl
          · rcases hb with h | h
            · rcases List.mem_cons.mp h with h1 | h1
              · exact absurd h1 hbot
              · exact Or.inl h1
            · right
              rw [(setBetterIndex_proj _ _).2.2.1, betsLookup_insert, if_neg hbot]
              exact h

/-- Sum of the forced bets the constructor loop collects from a bot list. -/
def sumForced {α : Type} [DecidableEq α] (m : List (α × Int)) (l : List α) : Int :=
  (l.map (fun b => (betsLookup m b).getD 0)).sum

/-- Running maximum of the forced bets the constructor loop sees. -/
def maxForced {α : Type} [DecidableEq α] (m : List (α × Int)) (l : List α) (init : Int) : Int :=
  l.foldl (fun s b =>
    match betsLookup m b with
    | some v => max s v
    | none => s) init

theorem sumForced_congr {α : Type} [DecidableEq α] {m1 m2 : List (α × Int)} :
    ∀ {l : List α}, (∀ b ∈ l, betsLookup m1 b = betsLookup m2 b) →
      sumForced m1 l = sumForced m2 l := by
  intro l
  induction l with
  | nil => intro _; rfl
  | cons b rest ih =>
      intro h
      unfold sumForced at ih ⊢
      simp only [List.map_cons, List.sum_cons]
      rw [h b (List.mem_cons_self b rest), ih (fun q hq => h q (List.mem_cons_of_mem b hq))]

theorem maxForced_congr {α : Type} [DecidableEq α] {m1 m2 : List (α × Int)} :
    ∀ {l : List α}, (∀ b ∈ l, betsLookup m1 b = betsLookup m2 b) →
      ∀ init, maxForced m1 l init = maxForced m2 l init := by
  intro l
  induction l with
  | nil => intro _ _; rfl
  | cons b rest ih =>
      intro h init
      unfold maxForced at ih ⊢
      simp only [List.foldl_cons]
      rw [h b (List.mem_cons_self b rest)]
      exact ih (fun q hq => h q (List.mem_cons_of_mem b hq)) _

/-- The constructor loop adds exactly the forced bets of the (distinct) bots to
the pot. -/
theorem initLoop_pot {α : Type} [DecidableEq α] :
    ∀ (l : List α) (i : Nat) (r : BettingRound α), l.Nodup →
      (initLoop l i r).pot = r.pot + sumForced r.bets l := by
  intro l
  induction l with
  | nil =>
      intro i r _
      simp [initLoop, sumForced]
  | cons bot rest ih =>
      intro i r hnd
      obtain ⟨hb, hrest⟩ := List.nodup_cons.mp hnd
      unfold initLoop
      cases hl : betsLookup r.bets bot with
      | some bet =>
          rw [ih _ _ hrest, (processBet_proj _ _ _ _).1]
          have hcongr : sumForced (processBet { r with pot := r.pot + bet } bet bot true).bets rest
              = sumForced r.bets rest := by
            apply sumForced_congr
            intro q hq
            rw [(processBet_proj _ _ _ _).2.2.2.1]
            dsimp only
            rw [betsLookup_insert, if_neg (by intro h; subst h; exact hb hq)]
          rw [hcongr]
          unfold sumForced
          simp only [List.map_cons, List.sum_cons, hl, Option.getD_some]
          try dsimp only
          ring
      | none =>
          rw [ih _ _ hrest, (setBetterIndex_proj _ _).1]
          have hcongr : sumForced (setBetterIndex
                { r with bets := betsInsert r.bets bot 0 } (i : Int)).bets rest
              = sumForced r.bets rest := by
            apply sumForced_congr
            intro q hq
            rw [(setBetterIndex_proj _ _).2.2.1]
            dsimp only
            rw [betsLookup_insert, if_neg (by intro h; subst h; exact hb hq)]
          rw [hcongr]
          unfold sumForced
          simp only [List.map_cons, List.sum_cons, hl, Option.getD_none]
          try dsimp only
          ring

/-- The constructor loop raises the sidepot to the running maximum of the forced
bets of the (distinct) bots. -/
theorem initLoop_sidepot {α : Type} [DecidableEq α] :
    ∀ (l : List α) (i : Nat) (r : BettingRound α), l.Nodup →
      (initLoop l i r).sidepot = maxForced r.bets l r.sidepot := by
  intro l
  induction l with
  | nil =>
      intro i r _
      rfl
  | cons bot rest ih =>
      intro i r hnd
      obtain ⟨hb, hrest⟩ := List.nodup_cons.mp hnd
      unfold initLoop
      cases hl : betsLookup r.bets bot with
      | some bet =>
          rw [ih _ _ hrest]
          have hcongr : maxForced (processBet { r with pot := r.pot + bet } bet bot true).bets rest
              = maxForced r.bets rest := by
            funext init
            apply maxForced_congr _ init
            intro q hq
            rw [(processBet_proj _ _ _ _).2.2.2.1]
            dsimp only
            rw [betsLookup_insert, if_neg (by intro h; subst h; exact hb hq)]
          rw [hcongr, (processBet_proj _ _ _ _).2.2.2.2]
          unfold maxForced
          simp only [List.foldl_cons, hl]
      | none =>
          rw [ih _ _ hrest]
          have hcongr : maxForced (setBetterIndex
                { r with bets := betsInsert r.bets bot 0 } (i : Int)).bets rest
              = maxForced r.bets rest := by
            funext init
            apply maxForced_congr _ init
            intro q hq
            rw [(setBetterIndex_proj _ _).2.2.1]
            dsimp only
            rw [betsLookup_insert, if_neg (by intro h; subst h; exact hb hq)]
          rw [hcongr, (setBetterIndex_proj _ _).2.2.2.1]
          unfold maxForced
          simp only [List.foldl_cons, hl]

theorem findIdx_congr {α : Type} {p q : α → Bool} :
    ∀ {l : List α}, (∀ b ∈ l, p b = q b) → l.findIdx p = l.findIdx q := by
  intro l
  induction l with
  | nil => intro _; rfl
  | cons b rest ih =>
      intro h
      rw [List.findIdx_cons, List.findIdx_cons, h b (List.mem_cons_self b rest),
        ih (fun x hx => h x (List.mem_cons_of_mem b hx))]

/-- Once the action index is set the constructor loop never changes it. -/
theorem initLoop_index_of_set {α : Type} [DecidableEq α] :
    ∀ (l : List α) (i : Nat) (r : BettingRound α), r.next_better_index ≠ -1 →
      (initLoop l i r).next_better_index = r.next_better_index := by
  intro l
  induction l with
  | nil => intro i r _; rfl
  | cons bot rest ih =>
      intro i r h
      unfold initLoop
      cases hl : betsLookup r.bets bot with
      | some bet =>
          rw [ih _ _ (by rw [(processBet_proj _ _ _ _).2.2.1]; exact h),
            (processBet_proj _ _ _ _).2.2.1]
      | none =>
          have hidx : (setBetterIndex { r with bets := betsInsert r.bets bot 0 }
              (i : Int)).next_better_index = r.next_better_index :=
            setBetterIndex_index_of_set _ _ h
          rw [ih _ _ (by rw [hidx]; exact h), hidx]

/-- While the action index is still unset, the constructor loop sets it to the
position of the first bot with no forced bet, and leaves it unset when every bot
has a forced bet. -/
theorem initLoop_index_of_unset {α : Type} [DecidableEq α] :
    ∀ (l : List α) (i : Nat) (r : BettingRound α), l.Nodup → r.next_better_index = -1 →
      (initLoop l i r).next_better_index =
        (if l.findIdx (fun b => (betsLookup r.bets b).isNone) < l.length
         then ((i + l.findIdx (fun b => (betsLookup r.bets b).isNone) : Nat) : Int)
         else -1) := by
  intro l
  induction l with
  | nil =>
      intro i r _ h
      simpa [initLoop, List.findIdx] using h
  | cons bot rest ih =>
      intro i r hnd h
      obtain ⟨hb, hrest⟩ := List.nodup_cons.mp hnd
      unfold initLoop
      cases hl : betsLookup r.bets bot with
      | some bet =>
          have hcond : (fun b => (betsLookup r.bets b).isNone) bot = false := by simp [hl]
          have h1 : (processBet { r with pot := r.pot + bet } bet bot
              true).next_better_index = -1 := by
            rw [(processBet_proj _ _ _ _).2.2.1]
            exact h
          rw [ih _ _ hrest h1]
          have hfind : rest.findIdx (fun b => (betsLookup (processBet
                { r with pot := r.pot + bet } bet bot true).bets b).isNone)
              = rest.findIdx (fun b => (betsLookup r.bets b).isNone) := by
            apply findIdx_congr
            intro q hq
            rw [(processBet_proj _ _ _ _).2.2.2.1]
            dsimp only
            rw [betsLookup_insert, if_neg (by intro hh; subst hh; exact hb hq)]
          rw [hfind]
          simp only [List.findIdx_cons, hcond, Bool.cond_false, List.length_cons]
          by_cases hj : rest.findIdx (fun b => (betsLookup r.bets b).isNone) < rest.length
          · rw [if_pos hj, if_pos (by omega)]
            push_cast
            ring
          · rw [if_neg hj, if_neg (by omega)]
      | none =>
          have hcond : (fun b => (betsLookup r.bets b).isNone) bot = true := by simp [hl]
          have hset : (setBetterIndex { r with bets := betsInsert r.bets bot 0 }
              (i : Int)).next_better_index = (i : Int) :=
            setBetterIndex_index_of_unset _ _ h
          rw [initLoop_index_of_set rest (i + 1) _ (by rw [hset]; omega), hset]
          simp only [List.findIdx_cons, hcond, Bool.cond_true, List.length_cons]
          rw [if_pos (by omega)]
          simp

theorem betsLookup_eq_none_iff {α : Type} [DecidableEq α] :
    ∀ (m : List (α × Int)) (b : α), betsLookup m b = none ↔ ∀ kv ∈ m, kv.1 ≠ b := by
  intro m b
  induction m with
  | nil => simp [betsLookup]
  | cons kw rest ih =>
      obtain ⟨k, w⟩ := kw
      by_cases hk : k = b
      · subst hk
        simp [betsLookup]
      · simp [betsLookup, hk, ih]

theorem betsErase_of_none {α : Type} [DecidableEq α] :
    ∀ (m : List (α × Int)) (b : α), betsLookup m b = none → betsErase m b = m := by
  intro m b
  induction m with
  | nil => intro _; rfl
  | cons kw rest ih =>
      obtain ⟨k, w⟩ := kw
      intro h
      by_cases hk : k = b
      · subst hk
        simp [betsLookup] at h
      · simp only [betsLookup, hk, if_false, ite_false] at h
        simp [betsErase, hk, ih h]

theorem betsErase_sublist {α : Type} [DecidableEq α] :
    ∀ (m : List (α × Int)) (b : α), (betsErase m b).Sublist m := by
  intro m b
  induction m with
  | nil => exact List.Sublist.refl _
  | cons kw rest ih =>
      obtain ⟨k, w⟩ := kw
      by_cases hk : k = b
      · simp only [betsErase, hk, if_true, ite_true]
        exact ih.cons _
      · simp only [betsErase, hk, if_false, ite_false]
        exact ih.cons₂ _

theorem betsErase_mem {α : Type} [DecidableEq α] :
    ∀ (m : List (α × Int)) (b : α) (kv : α × Int),
      kv ∈ betsErase m b → kv ∈ m ∧ kv.1 ≠ b := by
  intro m b
  induction m with
  | nil => intro kv h; simp [betsErase] at h
  | cons kw rest ih =>
      obtain ⟨k, w⟩ := kw
      intro kv h
      by_cases hk : k = b
      · simp only [betsErase, hk, if_true, ite_true] at h
        obtain ⟨h1, h2⟩ := ih kv h
        exact ⟨List.mem_cons_of_mem _ h1, h2⟩
      · simp only [betsErase, hk, if_false, ite_false, List.mem_cons] at h
        rcases h with h | h
        · subst h
          exact ⟨List.mem_cons_self _ _, hk⟩
        · obtain ⟨h1, h2⟩ := ih kv h
          exact ⟨List.mem_cons_of_mem _ h1, h2⟩

/-- Extracting the unique entry of a key from the value sum of a dict. -/
theorem sum_extract {α : Type} [DecidableEq α] :
    ∀ (m : List (α × Int)) (b : α) (v : Int), (m.map Prod.fst).Nodup →
      betsLookup m b = some v →
      (m.map Prod.snd).sum = v + ((betsErase m b).map Prod.snd).sum := by
  intro m b v
  induction m with
  | nil => intro _ h; simp [betsLookup] at h
  | cons kw rest ih =>
      obtain ⟨k, w⟩ := kw
      intro hnd hl
      rw [List.map_cons] at hnd
      obtain ⟨hk1, hk2⟩ := List.nodup_cons.mp hnd
      by_cases hk : k = b
      · subst hk
        simp only [betsLookup, if_pos rfl, ite_true, Option.some.injEq] at hl
        subst hl
        have hnone : betsLookup rest k = none := by
          rw [betsLookup_eq_none_iff]
          intro kv hkv heq
          exact hk1 (List.mem_map.mpr ⟨kv, hkv, heq⟩)
        simp [betsErase, betsErase_of_none rest k hnone]
      · simp only [betsLookup, hk, if_false, ite_false] at hl
        simp only [betsErase, hk, if_false, ite_false, List.map_cons, List.sum_cons]
        rw [ih hk2 hl]
        ring

/-- Extracting the unique entry of a key from the running max of a dict. -/
theorem max_extract {α : Type} [DecidableEq α] :
    ∀ (m : List (α × Int)) (b : α) (v : Int), (m.map Prod.fst).Nodup →
      betsLookup m b = some v → ∀ init : Int,
      (m.map Prod.snd).foldl max init = ((betsErase m b).map Prod.snd).foldl max (max init v) := by
  intro m b v
  induction m with
  | nil => intro _ h; simp [betsLookup] at h
  | cons kw rest ih =>
      obtain ⟨k, w⟩ := kw
      intro hnd hl init
      rw [List.map_cons] at hnd
      obtain ⟨hk1, hk2⟩ := List.nodup_cons.mp hnd
      by_cases hk : k = b
      · subst hk
        simp only [betsLookup, if_pos rfl, ite_true, Option.some.injEq] at hl
        subst hl
        have hnone : betsLookup rest k = none := by
          rw [betsLookup_eq_none_iff]
          intro kv hkv heq
          exact hk1 (List.mem_map.mpr ⟨kv, hkv, heq⟩)
        simp [betsErase, betsErase_of_none rest k hnone]
      · simp only [betsLookup, hk, if_false, ite_false] at hl
        simp only [betsErase, hk, if_false, ite_false, List.map_cons, List.foldl_cons]
        rw [ih hk2 hl (max init w), sup_right_comm]

/-- The forced-bet sum collected bot by bot equals the sum of the dict values
when every dict key is a distinct bot. -/
theorem sumForced_eq {α : Type} [DecidableEq α] :
    ∀ (bots : List α) (m : List (α × Int)), bots.Nodup → (m.map Prod.fst).Nodup →
      (∀ kv ∈ m, kv.1 ∈ bots) → sumForced m bots = (m.map Prod.snd).sum := by
  intro bots
  induction bots with
  | nil =>
      intro m _ _ hsub
      cases m with
      | nil => rfl
      | cons kv rest => exact absurd (hsub kv (List.mem_cons_self _ _)) (List.not_mem_nil _)
  | cons b bs ih =>
      intro m hnd hkeys hsub
      obtain ⟨hb, hbs⟩ := List.nodup_cons.mp hnd
      cases hl : betsLookup m b with
      | none =>
          have hsub2 : ∀ kv ∈ m, kv.1 ∈ bs := by
            intro kv hkv
            rcases List.mem_cons.mp (hsub kv hkv) with h | h
            · exact absurd h ((betsLookup_eq_none_iff m b).mp hl kv hkv)
            · exact h
          unfold sumForced
          simp only [List.map_cons, List.sum_cons, hl, Option.getD_none]
          rw [show ((bs.map fun q => (betsLookup m q).getD 0).sum : Int)
            = sumForced m bs from rfl, ih m hbs hkeys hsub2]
          ring
      | some v =>
          have hkeys2 : ((betsErase m b).map Prod.fst).Nodup :=
            ((betsErase_sublist m b).map Prod.fst).nodup hkeys
          have hsub2 : ∀ kv ∈ betsErase m b, kv.1 ∈ bs := by
            intro kv hkv
            obtain ⟨h1, h2⟩ := betsErase_mem m b kv hkv
            rcases List.mem_cons.mp (hsub kv h1) with h | h
            · exact absurd h h2
            · exact h
          have hcongr : sumForced m bs = sumForced (betsErase m b) bs := by
            apply sumForced_congr
            intro q hq
            rw [betsLookup_erase, if_neg (by intro hh; subst hh; exact hb hq)]
          unfold sumForced
          simp only [List.map_cons, List.sum_cons, hl, Option.getD_some]
          rw [show ((bs.map fun q => (betsLookup m q).getD 0).sum : Int)
            = sumForced m bs from rfl, hcongr, ih (betsErase m b) hbs hkeys2 hsub2,
            sum_extract m b v hkeys hl]

/-- The forced-bet running max collected bot by bot equals the fold of the dict
values when every dict key is a distinct bot. -/
theorem maxForced_eq {α : Type} [DecidableEq α] :
    ∀ (bots : List α) (m : List (α × Int)), bots.Nodup → (m.map Prod.fst).Nodup →
      (∀ kv ∈ m, kv.1 ∈ bots) → ∀ init : Int,
      maxForced m bots init = (m.map Prod.snd).foldl max init := by
  intro bots
  induction bots with
  | nil =>
      intro m _ _ hsub init
      cases m with
      | nil => rfl
      | cons kv rest => exact absurd (hsub kv (List.mem_cons_self _ _)) (List.not_mem_nil _)
  | cons b bs ih =>
      intro m hnd hkeys hsub init
      obtain ⟨hb, hbs⟩ := List.nodup_cons.mp hnd
      cases hl : betsLookup m b with
      | none =>
          have hsub2 : ∀ kv ∈ m, kv.1 ∈ bs := by
            intro kv hkv
            rcases List.mem_cons.mp (hsub kv hkv) with h | h
            · exact absurd h ((betsLookup_eq_none_iff m b).mp hl kv hkv)
            · exact h
          unfold maxForced
          simp only [List.foldl_cons, hl]
          exact ih m hbs hkeys hsub2 init
      | some v =>
          have hkeys2 : ((betsErase m b).map Prod.fst).Nodup :=
            ((betsErase_sublist m b).map Prod.fst).nodup hkeys
          have hsub2 : ∀ kv ∈ betsErase m b, kv.1 ∈ bs := by
            intro kv hkv
            obtain ⟨h1, h2⟩ := betsErase_mem m b kv hkv
            rcases List.mem_cons.mp (hsub kv h1) with h | h
            · exact absurd h h2
            · exact h
          have hcongr : ∀ ini : Int, maxForced m bs ini = maxForced (betsErase m b) bs ini := by
            intro ini
            apply maxForced_congr _ ini
            intro q hq
            rw [betsLookup_erase, if_neg (by intro hh; subst hh; exact hb hq)]
          unfold maxForced
          simp only [List.foldl_cons, hl]
          rw [show (bs.foldl (fun s q =>
              match betsLookup m q with
              | some v => max s v
              | none => s) (max init v) : Int) = maxForced m bs (max init v) from rfl,
            hcongr, ih (betsErase m b) hbs hkeys2 hsub2, max_extract m b v hkeys hl]

theorem le_foldl_max : ∀ (l : List Int) (init : Int), init ≤ l.foldl max init := by
  intro l
  induction l with
  | nil => intro init; exact le_refl _
  | cons x rest ih =>
      intro init
      exact le_trans (le_max_left init x) (ih (max init x))

theorem foldl_max_ge_mem : ∀ (l : List Int) (init x : Int), x ∈ l → x ≤ l.foldl max init := by
  intro l
  induction l with
  | nil => intro init x hx; exact absurd hx (List.not_mem_nil x)
  | cons y rest ih =>
      intro init x hx
      rcases List.mem_cons.mp hx with h | h
      · subst h
        exact le_trans (le_max_right init x) (le_foldl_max rest (max init x))
      · exact ih (max init y) x h

theorem foldl_max_choice : ∀ (l : List Int) (init : Int),
    l.foldl max init = init ∨ l.foldl max init ∈ l := by
  intro l
  induction l with
  | nil => intro init; exact Or.inl rfl
  | cons y rest ih =>
      intro init
      rw [List.foldl_cons]
      rcases ih (max init y) with h | h
      · rw [h]
        rcases max_choice init y with h1 | h1
        · exact Or.inl h1
        · rw [h1]
          exact Or.inr (List.mem_cons_self y rest)
      · exact Or.inr (List.mem_cons_of_mem y h)

set_option maxHeartbeats 1000000 in
/-- C4: constructing a betting round from an ordered list of distinct players, a
forced-bet mapping whose keys are players, and a starting pot gives: the pot
grows by exactly the sum of the forced bets; the sidepot (amount to call) is the
fold of max over the forced bets starting from 0, which under nonnegative
forced bets is the maximum forced bet (0 when the mapping is empty, a forced bet
an upper bound of all of them otherwise, as the last three conjuncts state); no
high better is recorded; and next_better is the first player in order with no
forced bet, or the player at index 0 when every player posted a forced bet. -/
theorem c4_construction {α : Type} [DecidableEq α] (bots : List α) (forced : List (α × Int))
    (pot0 : Int) (hbots : bots.Nodup) (hkeys : (forced.map Prod.fst).Nodup)
    (hsub : ∀ kv ∈ forced, kv.1 ∈ bots) (hpos : ∀ kv ∈ forced, 0 ≤ kv.2) :
    (mkBettingRound bots forced pot0).pot = pot0 + (forced.map Prod.snd).sum
    ∧ (mkBettingRound bots forced pot0).sidepot = (forced.map Prod.snd).foldl max 0
    ∧ (mkBettingRound bots forced pot0).high_better = none
    ∧ nextBetter (mkBettingRound bots forced pot0)
        = bots.get? (if bots.findIdx (fun b => (betsLookup forced b).isNone) < bots.length
                     then bots.findIdx (fun b => (betsLookup forced b).isNone) else 0)
    ∧ (∀ kv ∈ forced, kv.2 ≤ (mkBettingRound bots forced pot0).sidepot)
    ∧ (forced = [] → (mkBettingRound bots forced pot0).sidepot = 0)
    ∧ (forced ≠ [] → ∃ kv ∈ forced, (mkBettingRound bots forced pot0).sidepot = kv.2) := by
  have hmk : mkBettingRound bots forced pot0
      = setBetterIndex (initLoop bots 0
          { pot := pot0, sidepot := 0, bots := bots, bets := forced,
            high_better := none, next_better_index := -1 }) 0 := rfl
  have hpot : (mkBettingRound bots forced pot0).pot = pot0 + (forced.map Prod.snd).sum := by
    rw [hmk, (setBetterIndex_proj _ _).1, initLoop_pot _ _ _ hbots]
    dsimp only
    rw [sumForced_eq bots forced hbots hkeys hsub]
  have hside : (mkBettingRound bots forced pot0).sidepot
      = (forced.map Prod.snd).foldl max 0 := by
    rw [hmk, (setBetterIndex_proj _ _).2.2.2.1, initLoop_sidepot _ _ _ hbots]
    dsimp only
    rw [maxForced_eq bots forced hbots hkeys hsub 0]
  have hhigh : (mkBettingRound bots forced pot0).high_better = none := by
    rw [hmk, (setBetterIndex_proj _ _).2.2.2.2, initLoop_high_better]
  have hbotsr : (mkBettingRound bots forced pot0).bots = bots := by
    rw [hmk, (setBetterIndex_proj _ _).2.1, initLoop_bots]
  have hbetsS : ∀ b ∈ bots, (betsLookup (mkBettingRound bots forced pot0).bets b).isSome := by
    intro b hbmem
    rw [hmk, (setBetterIndex_proj _ _).2.2.1]
    exact initLoop_staked _ _ _ _ (Or.inl hbmem)
  have hcan : ∀ b ∈ bots, canBet (mkBettingRound bots forced pot0) b = true := by
    intro b hbmem
    unfold canBet is_staked
    rw [hhigh]
    simp [hbetsS b hbmem]
  have hidxI : (initLoop bots 0
      { pot := pot0, sidepot := 0, bots := bots, bets := forced,
        high_better := none, next_better_index := -1 }).next_better_index
      = (if bots.findIdx (fun b => (betsLookup forced b).isNone) < bots.length
         then ((bots.findIdx (fun b => (betsLookup forced b).isNone) : Nat) : Int)
         else -1) := by
    rw [initLoop_index_of_unset _ _ _ hbots rfl]
    dsimp only
    by_cases hj : bots.findIdx (fun b => (betsLookup forced b).isNone) < bots.length
    · rw [if_pos hj, if_pos hj]
      norm_num
    · rw [if_neg hj, if_neg hj]
  have hidx : (mkBettingRound bots forced pot0).next_better_index
      = (if bots.findIdx (fun b => (betsLookup forced b).isNone) < bots.length
         then ((bots.findIdx (fun b => (betsLookup forced b).isNone) : Nat) : Int)
         else 0) := by
    rw [hmk]
    by_cases hj : bots.findIdx (fun b => (betsLookup forced b).isNone) < bots.length
    · rw [setBetterIndex_index_of_set _ _ (by rw [hidxI, if_pos hj]; omega), hidxI,
        if_pos hj, if_pos hj]
    · rw [setBetterIndex_index_of_unset _ _ (by rw [hidxI, if_neg hj]), if_neg hj]
  refine ⟨hpot, hside, hhigh, ?_, ?_, ?_, ?_⟩
  · unfold nextBetter
    rw [hbotsr, hidx]
    by_cases hj : bots.findIdx (fun b => (betsLookup forced b).isNone) < bots.length
    · rw [if_pos hj, if_pos hj, Int.toNat_natCast]
      cases hg : bots.get? (bots.findIdx (fun b => (betsLookup forced b).isNone)) with
      | none => rfl
      | some b =>
          dsimp only
          rw [hcan b (List.get?_mem hg)]
          simp
    · rw [if_neg hj, if_neg hj]
      cases hg : bots.get? (0 : Int).toNat with
      | none =>
          rw [show ((0 : Int).toNat) = 0 from rfl] at hg
          rw [hg]
      | some b =>
          rw [show ((0 : Int).toNat) = 0 from rfl] at hg
          rw [hg]
          dsimp only
          rw [hcan b (List.get?_mem hg)]
          simp
  · intro kv hkv
    rw [hside]
    exact foldl_max_ge_mem _ _ _ (List.mem_map_of_mem Prod.snd hkv)
  · intro h
    subst h
    rw [hside]
    rfl
  · intro hne
    rw [hside]
    rcases foldl_max_choice (forced.map Prod.snd) 0 with h | h
    · cases forced with
      | nil => exact absurd rfl hne
      | cons kv rest =>
          refine ⟨kv, List.mem_cons_self _ _, ?_⟩
          have h1 : kv.2 ≤ (((kv :: rest).map Prod.snd).foldl max 0) :=
            foldl_max_ge_mem _ _ _ (List.mem_map_of_mem Prod.snd (List.mem_cons_self _ _))
          have h2 : 0 ≤ kv.2 := hpos kv (List.mem_cons_self _ _)
          linarith [h, h1, h2]
    · obtain ⟨kv, hkv, heq⟩ := List.mem_map.mp h
      exact ⟨kv, hkv, heq.symm⟩

/-- Witness for C4 at the blinds scenario: players A, B, C, D with forced bets
A 10 and B 20 give pot 30, sidepot 20, no high better, and C first to act. -/
theorem c4_construction_witness :
    (mkBettingRound ["A", "B", "C", "D"] [("A", (10:Int)), ("B", 20)] 0).pot
        = 0 + ([("A", (10:Int)), ("B", 20)].map Prod.snd).sum
    ∧ (mkBettingRound ["A", "B", "C", "D"] [("A", (10:Int)), ("B", 20)] 0).sidepot
        = ([("A", (10:Int)), ("B", 20)].map Prod.snd).foldl max 0
    ∧ (mkBettingRound ["A", "B", "C", "D"] [("A", (10:Int)), ("B", 20)] 0).high_better = none
    ∧ nextBetter (mkBettingRound ["A", "B", "C", "D"] [("A", (10:Int)), ("B", 20)] 0)
        = ["A", "B", "C", "D"].get?
            (if ["A", "B", "C", "D"].findIdx
                  (fun b => (betsLookup [("A", (10:Int)), ("B", 20)] b).isNone)
                < (["A", "B", "C", "D"] : List String).length
             then ["A", "B", "C", "D"].findIdx
                  (fun b => (betsLookup [("A", (10:Int)), ("B", 20)] b).isNone)
             else 0) := by
  have h := c4_construction ["A", "B", "C", "D"] [("A", (10:Int)), ("B", 20)] 0
    (by decide) (by decide) (by decide) (by decide)
  exact ⟨h.1, h.2.1, h.2.2.1, h.2.2.2.1⟩

/-!
Preflop calculator from standalone/preflop_hand_wins.py. The calculator imports
HandBuilder from the pokeher.handscore module, which is not part of the
repository snapshot; only its contract is specified (section 4.1: evaluate
returns the best 5-card subset together with its score). The scoring algorithm
that section prescribes is exactly the one embedded above from pokeher/cards.py,
so the missing find_hand is modelled as the best-subset search paired with its
score. Randomness (random.shuffle) is modelled by passing the shuffled deck in
as data.
-/

/-- Kernel-computable mirror of bestHandLoop over the 100-scaled scores. -/
def bestHandLoop100 : List (List Card) → Int → Option (List Card) → Int × Option (List Card)
  | [], bestScore, best => (bestScore, best)
  | h :: rest, bestScore, best =>
      let s := scoreHand100 h
      if s > bestScore then bestHandLoop100 rest s (some h)
      else bestHandLoop100 rest bestScore best

theorem qdiv_lt_iff (a b : Int) : ((a : ℚ) / 100 < (b : ℚ) / 100) ↔ a < b := by
  rw [div_lt_div_iff (by norm_num) (by norm_num)]
  constructor
  · intro h
    exact_mod_cast (by linarith : (a : ℚ) < (b : ℚ))
  · intro h
    have hq : (a : ℚ) < (b : ℚ) := by exact_mod_cast h
    linarith

theorem bestHandLoop_eq :
    ∀ (hands : List (List Card)) (b : Int) (best : Option (List Card)),
      bestHandLoop hands ((b : ℚ) / 100) best
        = (((bestHandLoop100 hands b best).1 : ℚ) / 100, (bestHandLoop100 hands b best).2) := by
  intro hands
  induction hands with
  | nil => intro b best; rfl
  | cons h rest ih =>
      intro b best
      unfold bestHandLoop bestHandLoop100
      rw [scoreHandInternal_eq h]
      by_cases hgt : scoreHand100 h > b
      · rw [if_pos ((qdiv_lt_iff b (scoreHand100 h)).mpr hgt), if_pos hgt, ih]
      · rw [if_neg (fun hq => hgt ((qdiv_lt_iff b (scoreHand100 h)).mp hq)), if_neg hgt, ih]

/-- Modelled from the spec: HandBuilder.find_hand of the missing pokeher.handscore
module returns the best 5-card subset together with its HandScore (section 4.1):
None below 5 cards, the cards with their direct score at exactly 5, otherwise
the strictly-greatest-scoring 5-card combination, first found kept, over the
cards sorted descending. -/
def findHandScored (cards : List Card) : Option (List Card × ℚ) :=
  if cards = [] ∨ cards.length < HAND_LENGTH then none
  else if cards.length = HAND_LENGTH then some (cards, score_hand cards)
  else
    match bestHandLoop (combinations HAND_LENGTH (sortHand cards)) NO_SCORE none with
    | (s, some h) => some (h, s)
    | (_, none) => none

/-- Kernel-computable mirror of findHandScored over the 100-scaled scores. -/
def findHandScored100 (cards : List Card) : Option (List Card × Int) :=
  if cards = [] ∨ cards.length < HAND_LENGTH then none
  else if cards.length = HAND_LENGTH then some (cards, score_hand100 cards)
  else
    match bestHandLoop100 (combinations HAND_LENGTH (sortHand cards)) (-100) none with
    | (s, some h) => some (h, s)
    | (_, none) => none

theorem findHandScored_eq (cards : List Card) :
    findHandScored cards
      = (findHandScored100 cards).map (fun p => (p.1, (p.2 : ℚ) / 100)) := by
  unfold findHandScored findHandScored100
  by_cases h1 : cards = [] ∨ cards.length < HAND_LENGTH
  · rw [if_pos h1, if_pos h1]
    rfl
  · rw [if_neg h1, if_neg h1]
    by_cases h2 : cards.length = HAND_LENGTH
    · rw [if_pos h2, if_pos h2]
      simp [score_hand_eq]
    · rw [if_neg h2, if_neg h2]
      rw [show (NO_SCORE : ℚ) = ((-100 : Int) : ℚ) / 100 by rw [NO_SCORE]; norm_num]
      rw [bestHandLoop_eq]
      cases hc : bestHandLoop100 (combinations HAND_LENGTH (sortHand cards)) (-100) none with
      | mk s opt => cases opt <;> simp

/-- Modelled from the spec: PreflopCalculator.try_hand, with random.shuffle
replaced by taking the shuffled deck as input (the source shuffles the deck 7
times, which only permutes it). The opponent gets deck[0:2], the table is
deck[2:7]; both 7-card hands are evaluated with the spec-modelled find_hand, and
the pot share is 1 for a win, 0.5 for a tie and 0 for a loss. -/
def try_hand (hand : List Card) (deck : List Card) : ℚ :=
  match findHandScored (hand ++ (deck.drop 2).take 5),
        findHandScored (deck.take 2 ++ (deck.drop 2).take 5) with
  | some (_, our_score), some (_, their_score) =>
      if our_score > their_score then 1
      else if our_score = their_score then 1/2
      else 0
  | _, _ => 0

/-- PreflopCalculator.TRIES_PER_HAND. -/
def TRIES_PER_HAND : Nat := 10

/-- PreflopCalculator.percentage. -/
def percentage (num denom : ℚ) : ℚ := num / denom * 100

/-- The value PreflopCalculator.run stores in the mapping for one starting hand,
as a function of the shuffled decks of its TRIES_PER_HAND trials: the percentage
of the summed pot shares over the try count. -/
def runHandValue (hand : List Card) (decks : List (List Card)) : ℚ :=
  percentage ((decks.map (try_hand hand)).sum) (TRIES_PER_HAND : ℚ)

/-- Every trial returns a pot share of 0, 1/2 or 1. -/
theorem try_hand_mem (hand deck : List Card) :
    try_hand hand deck = 0 ∨ try_hand hand deck = 1/2 ∨ try_hand hand deck = 1 := by
  unfold try_hand
  cases findHandScored (hand ++ (deck.drop 2).take 5) with
  | none => exact Or.inl rfl
  | some p =>
      obtain ⟨ph, ps⟩ := p
      cases findHandScored (deck.take 2 ++ (deck.drop 2).take 5) with
      | none => exact Or.inl rfl
      | some q =>
          obtain ⟨qh, qs⟩ := q
          by_cases hgt : ps > qs
          · simp [hgt]
          · by_cases heq : ps = qs <;> simp [hgt, heq]

/-- Pocket aces (spades, hearts). -/
def c9Aces : List Card := [⟨14,⟨3⟩⟩, ⟨14,⟨2⟩⟩]
/-- A shuffled remaining deck: the opponent receives 2 of clubs and 3 of hearts,
the board runs ace of diamonds, king of spades, 9 of hearts, 7 of diamonds and
5 of clubs, so the aces make trips and the opponent holds ace-high only. -/
def c9Deck : List Card :=
  [⟨2,⟨0⟩⟩, ⟨3,⟨2⟩⟩, ⟨14,⟨1⟩⟩, ⟨13,⟨3⟩⟩, ⟨9,⟨2⟩⟩, ⟨7,⟨1⟩⟩, ⟨5,⟨0⟩⟩]

/-- C9 counterexample: a reachable stored value is 100, far outside [0, 1]. With
pocket aces and ten trials whose shuffles all deal the c9Deck order, every trial
is a win (trip aces against ace-high), the summed pot share is 10, and
percentage(10, 10) stores 100.0 in the mapping. -/
theorem c9_counterexample :
    runHandValue c9Aces (List.replicate 10 c9Deck) = 100
    ∧ ¬ (runHandValue c9Aces (List.replicate 10 c9Deck) ≤ 1) := by
  have hours : findHandScored100 (c9Aces ++ (c9Deck.drop 2).take 5)
      = some ([⟨14,⟨3⟩⟩, ⟨14,⟨2⟩⟩, ⟨14,⟨1⟩⟩, ⟨13,⟨3⟩⟩, ⟨9,⟨2⟩⟩], 300) := by decide
  have htheirs : findHandScored100 (c9Deck.take 2 ++ (c9Deck.drop 2).take 5)
      = some ([⟨14,⟨1⟩⟩, ⟨13,⟨3⟩⟩, ⟨9,⟨2⟩⟩, ⟨7,⟨1⟩⟩, ⟨5,⟨0⟩⟩], 140) := by decide
  have h1 : try_hand c9Aces c9Deck = 1 := by
    unfold try_hand
    rw [findHandScored_eq, findHandScored_eq, hours, htheirs]
    have hcmp : ((300 : Int) : ℚ) / 100 > ((140 : Int) : ℚ) / 100 := by
      rw [gt_iff_lt, qdiv_lt_iff]
      norm_num
    simp [hcmp]
    intro h
    exfalso
    norm_num at h
  have hv : runHandValue c9Aces (List.replicate 10 c9Deck) = 100 := by
    unfold runHandValue percentage TRIES_PER_HAND
    rw [List.map_replicate, h1, List.sum_replicate]
    norm_num
  exact ⟨hv, by rw [hv]; norm_num⟩

/-- C9 (amended): every value the preflop calculator can store is a percentage in
the interval [0, 100] (not a probability in [0, 1]): percentage multiplies the
mean pot share of the trials, itself in [0, 1], by 100. -/
theorem c9_preflop_values_percent (hand : List Card) (decks : List (List Card))
    (hlen : decks.length = TRIES_PER_HAND) :
    0 ≤ runHandValue hand decks ∧ runHandValue hand decks ≤ 100 := by
  have hmem : ∀ e ∈ decks.map (try_hand hand), 0 ≤ e ∧ e ≤ 1 := by
    intro e he
    obtain ⟨d, hd, rfl⟩ := List.mem_map.mp he
    rcases try_hand_mem hand d with h | h | h <;> rw [h] <;> norm_num
  have hsum0 : 0 ≤ (decks.map (try_hand hand)).sum :=
    List.sum_nonneg (fun x hx => (hmem x hx).1)
  have hsum1 : (decks.map (try_hand hand)).sum ≤ (decks.map (try_hand hand)).length • (1:ℚ) :=
    List.sum_le_card_nsmul _ _ (fun x hx => (hmem x hx).2)
  rw [List.length_map, hlen] at hsum1
  have h10 : (decks.map (try_hand hand)).sum ≤ 10 := by
    simpa [TRIES_PER_HAND] using hsum1
  unfold runHandValue percentage TRIES_PER_HAND
  have harith : (decks.map (try_hand hand)).sum / ((10:Nat):ℚ) * 100
      = (decks.map (try_hand hand)).sum * 10 := by
    push_cast
    ring
  rw [harith]
  constructor
  · linarith
  · linarith

/-- Witness for C9 amended at pocket aces with ten concrete trial decks. -/
theorem c9_preflop_values_percent_witness :
    0 ≤ runHandValue c9Aces (List.replicate 10 c9Deck)
    ∧ runHandValue c9Aces (List.replicate 10 c9Deck) ≤ 100 :=
  c9_preflop_values_percent c9Aces (List.replicate 10 c9Deck) (by decide)

end Poker
